import Mathlib

/-!
Verification of the node-selection core of `kube-threadsched`
(`src/cmd/kube-threadsched/main.go`, function `selectNode`, first variant,
lines 106-258).

Modelling conventions:
* Kubernetes resource quantities obtained through `Value()` are non-negative
  `int64` values; they are embedded as `Nat` (the sums stay far below the
  `int64` range for any realistic cluster, so wrap-around is not modelled).
* The `float64` score `ScoreLimits` holds `float64(limitsPlus)/float64(cap)`.
  It is embedded exactly as the fraction `Score` with numerator
  `AssignedCPULimitsPlus` and denominator `CPUCapacity`; the source's `<` and
  `==` on these quotients are embedded as the exact comparisons
  `Score.slt`/`Score.seq` (cross multiplication), and `Score.val : ℚ` gives
  the quotient's exact rational value.  Floating-point rounding of the
  quotient is thus idealised away, which keeps every comparison exact.
* The Go map `node_cpu_capacity : map[string]*NodeInfo` has unique keys; it
  is embedded as an association list with unique keys, kept in node-list
  (insertion) order, which serves as the canonical iteration order.  The
  dependence of the final loop on the (randomised) Go map iteration order is
  analysed separately through `pickBest` applied to permutations.
* A nil-`*NodeInfo` dereference (a bound pod naming a node that is absent
  from the map) is a Go panic; it is embedded as the `none` outcome of the
  `Option` monad.
* `selectNode`'s Go result `(string, error)` is embedded as
  `Except String String`: `Except.error` is the returned error value,
  `Except.ok` the chosen node name.
-/

/-- A container's resource section: `Resources.Limits[cpu]` and
`Resources.Requests[cpu]`, each possibly absent (`ok == false` in Go). -/
structure ContainerSpec where
  cpuLimit : Option Nat
  cpuRequest : Option Nat
deriving DecidableEq

/-- The parts of a pod the scheduler reads: its namespace, its
`Spec.NodeName` (empty string when unbound/pending) and its containers. -/
structure PodSpec where
  ns : String
  nodeName : String
  containers : List ContainerSpec
deriving DecidableEq

/-- A node as listed from the cluster: its name and
`Status.Capacity[cpu]` (absent when the node does not report capacity). -/
structure NodeItem where
  name : String
  cpuCapacity : Option Nat
deriving DecidableEq

/-- Exact value of the `float64` score: the fraction `num/den`, unreduced.
The sentinel `1e9` is `⟨10^9, 1⟩`. -/
structure Score where
  num : Nat
  den : Nat
deriving DecidableEq

/-- The exact rational value of a score. -/
def Score.val (s : Score) : ℚ :=
  (s.num : ℚ) / (s.den : ℚ)

/-- Exact comparison `a < b` of the two quotients (cross multiplication). -/
def Score.slt (a b : Score) : Prop :=
  a.num * b.den < b.num * a.den

/-- Exact comparison `a == b` of the two quotients (cross multiplication). -/
def Score.seq (a b : Score) : Prop :=
  a.num * b.den = b.num * a.den

instance (a b : Score) : Decidable (a.slt b) := by unfold Score.slt; infer_instance

instance (a b : Score) : Decidable (a.seq b) := by unfold Score.seq; infer_instance

/-- The per-node record of the source (`type NodeInfo struct`, lines
109-117). -/
structure NodeInfo where
  CPUCapacity : Nat
  AssignedCPULimits : Nat
  AssignedCPULimitsPlus : Nat
  AssignedCPURequests : Nat
  AssignedCPURequestsPlus : Nat
  ScoreLimits : Score
  ScorePods : Nat
deriving DecidableEq

/-- Keys of the association list embedding the Go map. -/
def keys (m : List (String × NodeInfo)) : List String :=
  m.map Prod.fst

/-- Update the value stored at key `k` (a Go map holds at most one entry per
key, so updating every matching entry coincides with the map update). -/
def updateKey (k : String) (f : NodeInfo → NodeInfo)
    (m : List (String × NodeInfo)) : List (String × NodeInfo) :=
  m.map fun e => if e.1 = k then (e.1, f e.2) else e

/-- Go map assignment `m[k] = v`: replace the entry when the key is present,
otherwise append a fresh entry. -/
def insertMap (k : String) (v : NodeInfo)
    (m : List (String × NodeInfo)) : List (String × NodeInfo) :=
  if k ∈ keys m then updateKey k (fun _ => v) m else m ++ [(k, v)]

/-- Go map read `m[k]` returning the entry when present. -/
def lookupMap (k : String) : List (String × NodeInfo) → Option NodeInfo
  | [] => none
  | e :: m => if e.1 = k then some e.2 else lookupMap k m

/-- Sum of the declared CPU limits of a pod's containers (lines 172-175 and
192-195: a container without a declared limit contributes nothing). -/
def podLimitSum (p : PodSpec) : Nat :=
  (p.containers.map fun c => c.cpuLimit.getD 0).sum

/-- Sum of the declared CPU requests of a pod's containers (lines 176-178
and 196-198). -/
def podRequestSum (p : PodSpec) : Nat :=
  (p.containers.map fun c => c.cpuRequest.getD 0).sum

/-- The capacity recorded for a node: `Status.Capacity[cpu]`, or 0 when the
node does not report CPU capacity (lines 144-149). -/
def capOf (n : NodeItem) : Nat :=
  n.cpuCapacity.getD 0

/-- Initial `NodeInfo` of a node (lines 152-160); `ScoreLimits` starts at
the sentinel `1e9`. -/
def initInfo (cap : Nat) : NodeInfo :=
  { CPUCapacity := cap
    AssignedCPULimits := 0
    AssignedCPULimitsPlus := 0
    AssignedCPURequests := 0
    AssignedCPURequestsPlus := 0
    ScoreLimits := ⟨10 ^ 9, 1⟩
    ScorePods := 0 }

/-- First loop over `nodes.Items` (lines 141-162): record every node in the
map with its capacity (0 when unreported). -/
def buildCapacityMap (nodes : List NodeItem) : List (String × NodeInfo) :=
  nodes.foldl (fun m n => insertMap n.name (initInfo (capOf n)) m) []

/-- Contribution of one bound namespace pod to its node's aggregates
(lines 172-181): add the container limit and request sums, then count the
pod. -/
def addPodAgg (p : PodSpec) (i : NodeInfo) : NodeInfo :=
  { i with
    AssignedCPULimits := i.AssignedCPULimits + podLimitSum p
    AssignedCPURequests := i.AssignedCPURequests + podRequestSum p
    ScorePods := i.ScorePods + 1 }

/-- One iteration of the namespace-pod aggregation loop (lines 166-182).
A pending pod (`NodeName == ""`) is skipped.  A bound pod whose node name is
not a key of the map dereferences a nil `*NodeInfo` in Go — a panic,
embedded as `none`. -/
def addPod (m : List (String × NodeInfo)) (p : PodSpec) :
    Option (List (String × NodeInfo)) :=
  if p.nodeName = "" then some m
  else
    match lookupMap p.nodeName m with
    | none => none
    | some _ => some (updateKey p.nodeName (addPodAgg p) m)

/-- Projection step of one node (lines 185-200): `AssignedCPULimitsPlus` and
`AssignedCPURequestsPlus` are the namespace aggregates plus the candidate
pod's own sums. -/
def addCandidate (cand : PodSpec) (m : List (String × NodeInfo))
    (n : NodeItem) : List (String × NodeInfo) :=
  updateKey n.name
    (fun i =>
      { i with
        AssignedCPULimitsPlus := i.AssignedCPULimits + podLimitSum cand
        AssignedCPURequestsPlus := i.AssignedCPURequests + podRequestSum cand })
    m

/-- Scoring of one `NodeInfo` (lines 203-216): an over-subscribed node has
its capacity zeroed (marked unschedulable); a node with positive capacity
gets `ScoreLimits = AssignedCPULimitsPlus / CPUCapacity`. -/
def scoreInfo (i : NodeInfo) : NodeInfo :=
  if i.CPUCapacity < i.AssignedCPURequestsPlus then
    { i with CPUCapacity := 0 }
  else if 0 < i.CPUCapacity then
    { i with ScoreLimits := ⟨i.AssignedCPULimitsPlus, i.CPUCapacity⟩ }
  else i

/-- One iteration of the scoring loop over `nodes.Items` (lines 203-216). -/
def scoreNode (m : List (String × NodeInfo)) (n : NodeItem) :
    List (String × NodeInfo) :=
  updateKey n.name scoreInfo m

/-- One iteration of the selection loop (lines 227-238).  The accumulator
holds the best `(name, ScoreLimits, ScorePods)` seen so far; `none` stands
for the initial sentinels (`bestScoreLimits = math.MaxFloat64`,
`bestScorePods = 1e9`), which any scored node beats: a node reaching this
loop with non-zero capacity has `ScoreLimits = limitsPlus/capacity`, and for
`int64` inputs that quotient is always strictly below `MaxFloat64`. -/
def pickStep (best : Option (String × Score × Nat)) (e : String × NodeInfo) :
    Option (String × Score × Nat) :=
  if e.2.CPUCapacity = 0 then best
  else
    match best with
    | none => some (e.1, e.2.ScoreLimits, e.2.ScorePods)
    | some (bn, bs, bp) =>
      if e.2.ScoreLimits.slt bs ∨ (e.2.ScoreLimits.seq bs ∧ e.2.ScorePods < bp) then
        some (e.1, e.2.ScoreLimits, e.2.ScorePods)
      else some (bn, bs, bp)

/-- The selection loop (lines 223-238) run over the map entries in a given
iteration order, returning `bestNode` when one was found. -/
def pickBest (es : List (String × NodeInfo)) : Option String :=
  (es.foldl pickStep none).map (·.1)

/-- Phases of `selectNode` that build the per-node map: capacity map,
namespace aggregation (panic as `none`), candidate projection, scoring. -/
def buildInfoMap (nodes : List NodeItem) (nsPods : List PodSpec)
    (cand : PodSpec) : Option (List (String × NodeInfo)) :=
  (nsPods.foldlM addPod (buildCapacityMap nodes)).map fun m1 =>
    nodes.foldl scoreNode (nodes.foldl (addCandidate cand) m1)

/-- The whole of `selectNode` (lines 106-258) on a snapshot: `nodes` is the
node list, `nsPods` the pod list of the candidate's namespace, `cand` the
candidate pod.  `none` is a Go panic; `Except.error` is the
`"no suitable node found"` return; `Except.ok` carries `bestNode`. -/
def selectNode (nodes : List NodeItem) (nsPods : List PodSpec)
    (cand : PodSpec) : Option (Except String String) :=
  (buildInfoMap nodes nsPods cand).map fun m =>
    match pickBest m with
    | none => Except.error "no suitable node found"
    | some nm => Except.ok nm

instance : DecidableEq (Except String String) := fun a b =>
  match a, b with
  | Except.error x, Except.error y =>
    if h : x = y then Decidable.isTrue (congrArg Except.error h)
    else Decidable.isFalse fun hc => h (Except.error.inj hc)
  | Except.error _, Except.ok _ => Decidable.isFalse fun hc => Except.noConfusion hc
  | Except.ok _, Except.error _ => Decidable.isFalse fun hc => Except.noConfusion hc
  | Except.ok x, Except.ok y =>
    if h : x = y then Decidable.isTrue (congrArg Except.ok h)
    else Decidable.isFalse fun hc => h (Except.ok.inj hc)

/-- The cluster-side namespace scoping of line 124
(`Pods(pod.Namespace).List`): only pods of the given namespace are
returned. -/
def podsInNamespace (allPods : List PodSpec) (ns : String) : List PodSpec :=
  allPods.filter fun p => p.ns == ns

/-- `selectNode` as invoked on a whole-cluster pod list, with the
collaborator performing the namespace scoping. -/
def selectNodeCluster (nodes : List NodeItem) (allPods : List PodSpec)
    (cand : PodSpec) : Option (Except String String) :=
  selectNode nodes (podsInNamespace allPods cand.ns) cand

/-- The caller's handling of the decision (`main`, lines 70-80): on an
error the pod is skipped (`some none`, left pending for the next cycle); on
success the pod is bound to the returned node (`some (some nm)`); `none` is
a crash. -/
def bindTarget (nodes : List NodeItem) (nsPods : List PodSpec)
    (cand : PodSpec) : Option (Option String) :=
  (selectNode nodes nsPods cand).map fun r =>
    match r with
    | Except.ok nm => some nm
    | Except.error _ => none

/-! Closed forms of the per-node aggregates, proven below to coincide with
what the fold pipeline computes. -/

/-- The namespace pods bound to node `k` (the pods the aggregation loop
credits to `k`). -/
def nsPodsOn (k : String) (nsPods : List PodSpec) : List PodSpec :=
  nsPods.filter fun p => p.nodeName != "" && p.nodeName == k

/-- Namespace CPU-limit sum already bound to node `k`. -/
def nsLimitSum (k : String) (nsPods : List PodSpec) : Nat :=
  ((nsPodsOn k nsPods).map podLimitSum).sum

/-- Namespace CPU-request sum already bound to node `k`. -/
def nsRequestSum (k : String) (nsPods : List PodSpec) : Nat :=
  ((nsPodsOn k nsPods).map podRequestSum).sum

/-- Number of namespace pods already bound to node `k`. -/
def nsPodCount (k : String) (nsPods : List PodSpec) : Nat :=
  (nsPodsOn k nsPods).length

/-- Admissibility of a node for the candidate: positive capacity and the
projected request sum within capacity. -/
def admissible (nsPods : List PodSpec) (cand : PodSpec) (n : NodeItem) : Prop :=
  0 < capOf n ∧ nsRequestSum n.name nsPods + podRequestSum cand ≤ capOf n

instance (nsPods : List PodSpec) (cand : PodSpec) (n : NodeItem) :
    Decidable (admissible nsPods cand n) := by
  unfold admissible; infer_instance

/-- The spread score of a node: projected namespace limit sum over
capacity. -/
def limitRatio (nsPods : List PodSpec) (cand : PodSpec) (n : NodeItem) : ℚ :=
  ((nsLimitSum n.name nsPods + podLimitSum cand : Nat) : ℚ) / (capOf n : ℚ)

/-- Closed form of the `NodeInfo` the pipeline ends up storing for node
`n`. -/
def finalInfo (nsPods : List PodSpec) (cand : PodSpec) (n : NodeItem) : NodeInfo :=
  scoreInfo
    { CPUCapacity := capOf n
      AssignedCPULimits := nsLimitSum n.name nsPods
      AssignedCPULimitsPlus := nsLimitSum n.name nsPods + podLimitSum cand
      AssignedCPURequests := nsRequestSum n.name nsPods
      AssignedCPURequestsPlus := nsRequestSum n.name nsPods + podRequestSum cand
      ScoreLimits := ⟨10 ^ 9, 1⟩
      ScorePods := nsPodCount n.name nsPods }

/-! Bridge between the exact fraction comparisons and their rational
values. -/

theorem Score.slt_iff_val {a b : Score} (ha : 0 < a.den) (hb : 0 < b.den) :
    a.slt b ↔ a.val < b.val := by
  unfold Score.slt Score.val
  rw [div_lt_div_iff₀ (by exact_mod_cast ha) (by exact_mod_cast hb)]
  exact_mod_cast Iff.rfl

theorem Score.seq_iff_val {a b : Score} (ha : 0 < a.den) (hb : 0 < b.den) :
    a.seq b ↔ a.val = b.val := by
  unfold Score.seq Score.val
  rw [div_eq_div_iff (by positivity) (by positivity)]
  exact_mod_cast Iff.rfl

/-! Association-list (Go map) lemmas. -/

/-- Rewrite `updateKey` entries with all keys and values visible. -/
def mapVals (g : String → NodeInfo → NodeInfo)
    (m : List (String × NodeInfo)) : List (String × NodeInfo) :=
  m.map fun e => (e.1, g e.1 e.2)

theorem updateKey_eq_mapVals (k : String) (f : NodeInfo → NodeInfo)
    (m : List (String × NodeInfo)) :
    updateKey k f m = mapVals (fun k' i => if k' = k then f i else i) m := by
  unfold updateKey mapVals
  apply List.map_congr_left
  intro e _
  by_cases h : e.1 = k <;> simp [h]

theorem mapVals_mapVals (g f : String → NodeInfo → NodeInfo)
    (m : List (String × NodeInfo)) :
    mapVals g (mapVals f m) = mapVals (fun k i => g k (f k i)) m := by
  unfold mapVals
  rw [List.map_map]
  rfl

theorem keys_mapVals (g : String → NodeInfo → NodeInfo)
    (m : List (String × NodeInfo)) : keys (mapVals g m) = keys m := by
  unfold keys mapVals
  rw [List.map_map]
  rfl

theorem keys_updateKey (k : String) (f : NodeInfo → NodeInfo)
    (m : List (String × NodeInfo)) : keys (updateKey k f m) = keys m := by
  rw [updateKey_eq_mapVals]; exact keys_mapVals _ m

theorem mapVals_id (m : List (String × NodeInfo)) :
    mapVals (fun _ i => i) m = m := by
  unfold mapVals
  simp

theorem mapVals_congr {g f : String → NodeInfo → NodeInfo}
    (m : List (String × NodeInfo)) (h : ∀ k i, g k i = f k i) :
    mapVals g m = mapVals f m := by
  unfold mapVals
  apply List.map_congr_left
  intro e _
  rw [h]

theorem lookupMap_eq_none_iff (k : String) (m : List (String × NodeInfo)) :
    lookupMap k m = none ↔ k ∉ keys m := by
  induction m with
  | nil => simp [lookupMap, keys]
  | cons e m ih =>
    by_cases h : e.1 = k
    · simp [lookupMap, keys, h]
    · have h' : ¬k = e.1 := fun hc => h hc.symm
      simp [lookupMap, keys, h, h', ih]

/-! Characterization of the capacity-map phase. -/

theorem buildCapacityMap_go (nodes : List NodeItem) :
    ∀ m : List (String × NodeInfo),
      (nodes.map NodeItem.name).Nodup →
      (∀ n ∈ nodes, n.name ∉ keys m) →
      nodes.foldl (fun m n => insertMap n.name (initInfo (capOf n)) m) m =
        m ++ nodes.map fun n => (n.name, initInfo (capOf n)) := by
  induction nodes with
  | nil => intro m _ _; simp
  | cons n ns ih =>
    intro m hnd hfresh
    have hne : n.name ∉ keys m := hfresh n (List.mem_cons_self n ns)
    have hstep : insertMap n.name (initInfo (capOf n)) m =
        m ++ [(n.name, initInfo (capOf n))] := by
      unfold insertMap
      rw [if_neg hne]
    rw [List.foldl_cons, hstep]
    rw [ih (m ++ [(n.name, initInfo (capOf n))])]
    · simp
    · exact (List.nodup_cons.mp hnd).2
    · intro n' hn'
      have hkeys : keys (m ++ [(n.name, initInfo (capOf n))]) =
          keys m ++ [n.name] := by
        unfold keys
        simp
      rw [hkeys]
      intro hc
      rcases List.mem_append.mp hc with h | h
      · exact hfresh n' (List.mem_cons_of_mem n hn') h
      · have : n'.name = n.name := List.mem_singleton.mp h
        have hnn : n.name ∉ ns.map NodeItem.name := (List.nodup_cons.mp hnd).1
        exact hnn (this ▸ List.mem_map_of_mem NodeItem.name hn')

theorem buildCapacityMap_eq (nodes : List NodeItem)
    (hnd : (nodes.map NodeItem.name).Nodup) :
    buildCapacityMap nodes = nodes.map fun n => (n.name, initInfo (capOf n)) := by
  unfold buildCapacityMap
  rw [buildCapacityMap_go nodes [] hnd (by intro n _; simp [keys])]
  simp

/-! Characterization of the namespace-aggregation phase. -/

/-- The total contribution of a namespace pod list to the info stored at
key `k`. -/
def aggAdd (nsPods : List PodSpec) (k : String) (i : NodeInfo) : NodeInfo :=
  { i with
    AssignedCPULimits := i.AssignedCPULimits + nsLimitSum k nsPods
    AssignedCPURequests := i.AssignedCPURequests + nsRequestSum k nsPods
    ScorePods := i.ScorePods + nsPodCount k nsPods }

theorem aggAdd_nil (k : String) (i : NodeInfo) : aggAdd [] k i = i := by
  cases i
  simp [aggAdd, nsLimitSum, nsRequestSum, nsPodCount, nsPodsOn]

theorem aggAdd_cons_skip {p : PodSpec} (ps : List PodSpec) (k : String)
    (i : NodeInfo) (h : p.nodeName = "" ∨ p.nodeName ≠ k) :
    aggAdd (p :: ps) k i = aggAdd ps k i := by
  have hfilter : (p.nodeName != "" && p.nodeName == k) = false := by
    rcases h with h | h <;> simp [h]
  simp [aggAdd, nsLimitSum, nsRequestSum, nsPodCount, nsPodsOn,
    List.filter_cons, hfilter]

theorem aggAdd_cons_bound {p : PodSpec} (ps : List PodSpec) (i : NodeInfo)
    (hb : p.nodeName ≠ "") :
    aggAdd (p :: ps) p.nodeName i = aggAdd ps p.nodeName (addPodAgg p i) := by
  cases i
  simp [aggAdd, addPodAgg, nsLimitSum, nsRequestSum, nsPodCount, nsPodsOn,
    List.filter_cons, hb]
  omega

theorem foldlM_addPod_eq (ps : List PodSpec) :
    ∀ m : List (String × NodeInfo),
      (∀ p ∈ ps, p.nodeName ≠ "" → p.nodeName ∈ keys m) →
      ps.foldlM addPod m = some (mapVals (aggAdd ps) m) := by
  induction ps with
  | nil =>
    intro m _
    rw [show mapVals (aggAdd []) m = m by
      rw [mapVals_congr m fun k i => aggAdd_nil k i]; exact mapVals_id m]
    rfl
  | cons p ps ih =>
    intro m hcov
    rw [show (p :: ps).foldlM addPod m = (addPod m p).bind
        (fun m' => ps.foldlM addPod m') from rfl]
    by_cases hb : p.nodeName = ""
    · rw [show addPod m p = some m by unfold addPod; rw [if_pos hb]]
      rw [Option.some_bind, ih m (fun q hq => hcov q (List.mem_cons_of_mem p hq))]
      congr 1
      exact mapVals_congr m fun k i => (aggAdd_cons_skip ps k i (Or.inl hb)).symm
    · have hk : p.nodeName ∈ keys m := hcov p (List.mem_cons_self p ps) hb
      obtain ⟨i0, hi0⟩ : ∃ i, lookupMap p.nodeName m = some i := by
        cases hlk : lookupMap p.nodeName m with
        | none => exact absurd ((lookupMap_eq_none_iff _ m).mp hlk) (by simpa using hk)
        | some i => exact ⟨i, rfl⟩
      rw [show addPod m p = some (updateKey p.nodeName (addPodAgg p) m) by
        unfold addPod; rw [if_neg hb, hi0]]
      rw [Option.some_bind,
        ih (updateKey p.nodeName (addPodAgg p) m)
          (by intro q hq hq'
              rw [keys_updateKey]
              exact hcov q (List.mem_cons_of_mem p hq) hq')]
      congr 1
      rw [updateKey_eq_mapVals, mapVals_mapVals]
      apply mapVals_congr
      intro k i
      by_cases hkk : k = p.nodeName
      · subst hkk
        rw [if_pos rfl]
        exact (aggAdd_cons_bound ps i hb).symm
      · rw [if_neg hkk]
        exact (aggAdd_cons_skip ps k i (Or.inr fun hc => hkk hc.symm)).symm

/-! Characterization of the per-node update phases (candidate projection
and scoring). -/

theorem foldl_updateKey_eq (g : NodeInfo → NodeInfo) (nodes : List NodeItem) :
    ∀ m : List (String × NodeInfo),
      (nodes.map NodeItem.name).Nodup →
      nodes.foldl (fun m n => updateKey n.name g m) m =
        mapVals (fun k i => if k ∈ nodes.map NodeItem.name then g i else i) m := by
  induction nodes with
  | nil =>
    intro m _
    simp only [List.foldl_nil, List.map_nil]
    rw [show mapVals (fun k i => if k ∈ ([] : List String) then g i else i) m
        = mapVals (fun _ i => i) m from mapVals_congr m (by intro k i; simp)]
    exact (mapVals_id m).symm
  | cons n ns ih =>
    intro m hnd
    have hnn : n.name ∉ ns.map NodeItem.name := (List.nodup_cons.mp hnd).1
    rw [List.foldl_cons, updateKey_eq_mapVals,
      ih (mapVals (fun k' i => if k' = n.name then g i else i) m)
        (List.nodup_cons.mp hnd).2,
      mapVals_mapVals]
    apply mapVals_congr
    intro k i
    by_cases hk : k = n.name
    · subst hk
      simp [hnn]
    · by_cases hm : k ∈ ns.map NodeItem.name <;> simp [hk, hm]

theorem mapVals_map (g : String → NodeInfo → NodeInfo) (nodes : List NodeItem)
    (v : NodeItem → NodeInfo) :
    mapVals g (nodes.map fun n => (n.name, v n)) =
      nodes.map fun n => (n.name, g n.name (v n)) := by
  unfold mapVals
  rw [List.map_map]
  rfl

theorem foldl_updateKey_map (g : NodeInfo → NodeInfo) (nodes : List NodeItem)
    (v : NodeItem → NodeInfo) (hnd : (nodes.map NodeItem.name).Nodup) :
    nodes.foldl (fun m n => updateKey n.name g m)
        (nodes.map fun n => (n.name, v n)) =
      nodes.map fun n => (n.name, g (v n)) := by
  rw [foldl_updateKey_eq g nodes _ hnd, mapVals_map]
  apply List.map_congr_left
  intro n hn
  rw [if_pos (List.mem_map_of_mem NodeItem.name hn)]

theorem finalInfo_unfold (nsPods : List PodSpec) (cand : PodSpec) (n : NodeItem) :
    scoreInfo
      { aggAdd nsPods n.name (initInfo (capOf n)) with
        AssignedCPULimitsPlus :=
          (aggAdd nsPods n.name (initInfo (capOf n))).AssignedCPULimits +
            podLimitSum cand
        AssignedCPURequestsPlus :=
          (aggAdd nsPods n.name (initInfo (capOf n))).AssignedCPURequests +
            podRequestSum cand } = finalInfo nsPods cand n := by
  simp [aggAdd, initInfo, finalInfo]

/-- The map `selectNode` has built when its selection loop starts: one entry
per node, in node-list order, holding the closed-form `finalInfo`. -/
theorem buildInfoMap_eq (nodes : List NodeItem) (nsPods : List PodSpec)
    (cand : PodSpec) (hnd : (nodes.map NodeItem.name).Nodup)
    (hcov : ∀ p ∈ nsPods, p.nodeName ≠ "" → p.nodeName ∈ nodes.map NodeItem.name) :
    buildInfoMap nodes nsPods cand =
      some (nodes.map fun n => (n.name, finalInfo nsPods cand n)) := by
  have hkeys : keys (buildCapacityMap nodes) = nodes.map NodeItem.name := by
    rw [buildCapacityMap_eq nodes hnd]
    unfold keys
    rw [List.map_map]
    rfl
  unfold buildInfoMap
  rw [foldlM_addPod_eq nsPods _ (by rw [hkeys]; exact hcov),
    buildCapacityMap_eq nodes hnd, mapVals_map, Option.map_some']
  have hC : nodes.foldl (addCandidate cand)
      (nodes.map fun n => (n.name, aggAdd nsPods n.name (initInfo (capOf n)))) =
      nodes.map fun n =>
        (n.name,
          { aggAdd nsPods n.name (initInfo (capOf n)) with
            AssignedCPULimitsPlus :=
              (aggAdd nsPods n.name (initInfo (capOf n))).AssignedCPULimits +
                podLimitSum cand
            AssignedCPURequestsPlus :=
              (aggAdd nsPods n.name (initInfo (capOf n))).AssignedCPURequests +
                podRequestSum cand }) :=
    foldl_updateKey_map _ nodes _ hnd
  have hD : nodes.foldl scoreNode
      (nodes.map fun n =>
        (n.name,
          { aggAdd nsPods n.name (initInfo (capOf n)) with
            AssignedCPULimitsPlus :=
              (aggAdd nsPods n.name (initInfo (capOf n))).AssignedCPULimits +
                podLimitSum cand
            AssignedCPURequestsPlus :=
              (aggAdd nsPods n.name (initInfo (capOf n))).AssignedCPURequests +
                podRequestSum cand })) =
      nodes.map fun n =>
        (n.name,
          scoreInfo
            { aggAdd nsPods n.name (initInfo (capOf n)) with
              AssignedCPULimitsPlus :=
                (aggAdd nsPods n.name (initInfo (capOf n))).AssignedCPULimits +
                  podLimitSum cand
              AssignedCPURequestsPlus :=
                (aggAdd nsPods n.name (initInfo (capOf n))).AssignedCPURequests +
                  podRequestSum cand }) :=
    foldl_updateKey_map scoreInfo nodes _ hnd
  rw [hC, hD]
  congr 1
  apply List.map_congr_left
  intro n _
  rw [finalInfo_unfold]

/-! Case analysis of the per-node closed form. -/

theorem finalInfo_admissible {nsPods : List PodSpec} {cand : PodSpec}
    {n : NodeItem} (h : admissible nsPods cand n) :
    finalInfo nsPods cand n =
      { CPUCapacity := capOf n
        AssignedCPULimits := nsLimitSum n.name nsPods
        AssignedCPULimitsPlus := nsLimitSum n.name nsPods + podLimitSum cand
        AssignedCPURequests := nsRequestSum n.name nsPods
        AssignedCPURequestsPlus := nsRequestSum n.name nsPods + podRequestSum cand
        ScoreLimits := ⟨nsLimitSum n.name nsPods + podLimitSum cand, capOf n⟩
        ScorePods := nsPodCount n.name nsPods } := by
  unfold finalInfo scoreInfo
  rw [if_neg (show ¬(capOf n < nsRequestSum n.name nsPods + podRequestSum cand)
        from not_lt.mpr h.2),
    if_pos (show 0 < capOf n from h.1)]

theorem finalInfo_not_admissible {nsPods : List PodSpec} {cand : PodSpec}
    {n : NodeItem} (h : ¬admissible nsPods cand n) :
    (finalInfo nsPods cand n).CPUCapacity = 0 ∧
      (finalInfo nsPods cand n).ScoreLimits = ⟨10 ^ 9, 1⟩ := by
  unfold finalInfo scoreInfo
  by_cases h1 : capOf n < nsRequestSum n.name nsPods + podRequestSum cand
  · rw [if_pos (show capOf n < nsRequestSum n.name nsPods + podRequestSum cand
        from h1)]
    exact ⟨rfl, rfl⟩
  · have hcap : capOf n = 0 := by
      unfold admissible at h
      omega
    rw [if_neg (show ¬(capOf n < nsRequestSum n.name nsPods + podRequestSum cand)
          from h1),
      if_neg (show ¬(0 < capOf n) by omega)]
    exact ⟨hcap, rfl⟩

theorem finalInfo_cap_ne_zero_iff {nsPods : List PodSpec} {cand : PodSpec}
    {n : NodeItem} :
    (finalInfo nsPods cand n).CPUCapacity ≠ 0 ↔ admissible nsPods cand n := by
  constructor
  · intro hne
    by_contra hadm
    exact hne (finalInfo_not_admissible hadm).1
  · intro h
    rw [finalInfo_admissible h]
    exact Nat.pos_iff_ne_zero.mp h.1

theorem finalInfo_score_val {nsPods : List PodSpec} {cand : PodSpec}
    {n : NodeItem} (h : admissible nsPods cand n) :
    (finalInfo nsPods cand n).ScoreLimits.val = limitRatio nsPods cand n ∧
      0 < (finalInfo nsPods cand n).ScoreLimits.den := by
  rw [finalInfo_admissible h]
  exact ⟨rfl, h.1⟩

theorem finalInfo_ScorePods (nsPods : List PodSpec) (cand : PodSpec)
    (n : NodeItem) :
    (finalInfo nsPods cand n).ScorePods = nsPodCount n.name nsPods := by
  unfold finalInfo scoreInfo
  split
  · rfl
  · split <;> rfl

/-! Invariants of the selection loop. -/

theorem pickStep_zero {e : String × NodeInfo} (h : e.2.CPUCapacity = 0)
    (acc : Option (String × Score × Nat)) : pickStep acc e = acc := by
  unfold pickStep
  rw [if_pos h]

theorem pickStep_none {e : String × NodeInfo} (h : e.2.CPUCapacity ≠ 0) :
    pickStep none e = some (e.1, e.2.ScoreLimits, e.2.ScorePods) := by
  unfold pickStep
  rw [if_neg h]

theorem pickStep_some {e : String × NodeInfo} (h : e.2.CPUCapacity ≠ 0)
    (b : String × Score × Nat) :
    pickStep (some b) e =
      if e.2.ScoreLimits.slt b.2.1 ∨
          (e.2.ScoreLimits.seq b.2.1 ∧ e.2.ScorePods < b.2.2) then
        some (e.1, e.2.ScoreLimits, e.2.ScorePods)
      else some b := by
  unfold pickStep
  rw [if_neg h]

/-- Reflexive lexicographic order on `(score value, pod count)`: the order
the selection loop minimises. -/
def lexLeQ (a b : Score × Nat) : Prop :=
  a.1.val < b.1.val ∨ (a.1.val = b.1.val ∧ a.2 ≤ b.2)

theorem lexLeQ_refl (a : Score × Nat) : lexLeQ a a :=
  Or.inr ⟨rfl, le_refl _⟩

theorem lexLeQ_trans {a b c : Score × Nat} (h1 : lexLeQ a b) (h2 : lexLeQ b c) :
    lexLeQ a c := by
  rcases h1 with h1 | ⟨h1, h1'⟩ <;> rcases h2 with h2 | ⟨h2, h2'⟩
  · exact Or.inl (h1.trans h2)
  · exact Or.inl (h2 ▸ h1)
  · exact Or.inl (h1 ▸ h2)
  · exact Or.inr ⟨h1.trans h2, h1'.trans h2'⟩

theorem lexLeQ_of_cond {s b : Score} {p q : Nat} (hs : 0 < s.den)
    (hb : 0 < b.den) (h : s.slt b ∨ (s.seq b ∧ p < q)) :
    lexLeQ (s, p) (b, q) := by
  rcases h with h | ⟨h, h'⟩
  · exact Or.inl ((Score.slt_iff_val hs hb).mp h)
  · exact Or.inr ⟨(Score.seq_iff_val hs hb).mp h, le_of_lt h'⟩

theorem lexLeQ_of_not_cond {s b : Score} {p q : Nat} (hs : 0 < s.den)
    (hb : 0 < b.den) (h : ¬(s.slt b ∨ (s.seq b ∧ p < q))) :
    lexLeQ (b, q) (s, p) := by
  push_neg at h
  obtain ⟨h1, h2⟩ := h
  rw [Score.slt_iff_val hs hb] at h1
  rcases lt_or_eq_of_le (not_lt.mp h1) with hlt | heq
  · exact Or.inl hlt
  · have hseq : s.seq b := (Score.seq_iff_val hs hb).mpr heq.symm
    exact Or.inr ⟨heq, h2 hseq⟩

theorem foldl_pickStep_none_iff (es : List (String × NodeInfo)) :
    ∀ acc, es.foldl pickStep acc = none ↔
      acc = none ∧ ∀ e ∈ es, e.2.CPUCapacity = 0 := by
  induction es with
  | nil => intro acc; simp
  | cons e es ih =>
    intro acc
    rw [List.foldl_cons]
    by_cases hcap : e.2.CPUCapacity = 0
    · rw [pickStep_zero hcap, ih]
      constructor
      · rintro ⟨h1, h2⟩
        refine ⟨h1, ?_⟩
        intro e' he'
        rcases List.mem_cons.mp he' with rfl | h
        · exact hcap
        · exact h2 e' h
      · rintro ⟨h1, h2⟩
        exact ⟨h1, fun e' he' => h2 e' (List.mem_cons_of_mem e he')⟩
    · constructor
      · intro h
        exfalso
        have hnone := ((ih _).mp h).1
        rcases acc with _ | b
        · rw [pickStep_none hcap] at hnone
          exact Option.noConfusion hnone
        · rw [pickStep_some hcap b] at hnone
          split at hnone <;> exact Option.noConfusion hnone
      · rintro ⟨_, h2⟩
        exact absurd (h2 e (List.mem_cons_self e es)) hcap

theorem foldl_pickStep_provenance (es : List (String × NodeInfo)) :
    ∀ acc r, es.foldl pickStep acc = some r →
      acc = some r ∨ ∃ e ∈ es, e.2.CPUCapacity ≠ 0 ∧
        r = (e.1, e.2.ScoreLimits, e.2.ScorePods) := by
  induction es with
  | nil => intro acc r h; exact Or.inl h
  | cons e es ih =>
    intro acc r h
    rw [List.foldl_cons] at h
    rcases ih _ r h with hacc | ⟨e', he', h1, h2⟩
    · by_cases hcap : e.2.CPUCapacity = 0
      · rw [pickStep_zero hcap] at hacc
        exact Or.inl hacc
      · rcases acc with _ | b
        · rw [pickStep_none hcap] at hacc
          exact Or.inr ⟨e, List.mem_cons_self e es, hcap, (Option.some.inj hacc).symm⟩
        · rw [pickStep_some hcap b] at hacc
          split at hacc
          · exact Or.inr ⟨e, List.mem_cons_self e es, hcap, (Option.some.inj hacc).symm⟩
          · exact Or.inl hacc
    · exact Or.inr ⟨e', List.mem_cons_of_mem e he', h1, h2⟩

set_option maxHeartbeats 1600000 in
theorem foldl_pickStep_spec (es : List (String × NodeInfo)) :
    ∀ acc,
      (∀ e ∈ es, e.2.CPUCapacity ≠ 0 → 0 < e.2.ScoreLimits.den) →
      (∀ b, acc = some b → 0 < b.2.1.den) →
      ∀ r, es.foldl pickStep acc = some r →
        0 < r.2.1.den ∧
          (∀ b, acc = some b → lexLeQ r.2 b.2) ∧
          (∀ e ∈ es, e.2.CPUCapacity ≠ 0 →
            lexLeQ r.2 (e.2.ScoreLimits, e.2.ScorePods)) := by
  induction es with
  | nil =>
    intro acc _ hacc r hr
    refine ⟨hacc r hr, ?_, ?_⟩
    · intro b hb
      have heq : r = b := Option.some.inj (hr.symm.trans hb)
      exact heq ▸ lexLeQ_refl r.2
    · intro e he
      exact absurd he (List.not_mem_nil e)
  | cons e es ih =>
    intro acc hden hacc r hr
    rw [List.foldl_cons] at hr
    have hdentail : ∀ e' ∈ es, e'.2.CPUCapacity ≠ 0 → 0 < e'.2.ScoreLimits.den :=
      fun e' h' => hden e' (List.mem_cons_of_mem e h')
    have hdenhead : e.2.CPUCapacity ≠ 0 → 0 < e.2.ScoreLimits.den :=
      hden e (List.mem_cons_self e es)
    have hacc' : ∀ b, pickStep acc e = some b → 0 < b.2.1.den := by
      intro b hb
      by_cases hcap : e.2.CPUCapacity = 0
      · rw [pickStep_zero hcap] at hb
        exact hacc b hb
      · rcases acc with _ | b0
        · rw [pickStep_none hcap] at hb
          cases Option.some.inj hb
          exact hdenhead hcap
        · rw [pickStep_some hcap b0] at hb
          split at hb
          · cases Option.some.inj hb
            exact hdenhead hcap
          · cases Option.some.inj hb
            exact hacc _ rfl
    obtain ⟨hr_den, hr_acc, hr_es⟩ := ih (pickStep acc e) hdentail hacc' r hr
    refine ⟨hr_den, ?_, ?_⟩
    · intro b hb
      by_cases hcap : e.2.CPUCapacity = 0
      · exact hr_acc b (by rw [pickStep_zero hcap, hb])
      · by_cases hcond : e.2.ScoreLimits.slt b.2.1 ∨
            (e.2.ScoreLimits.seq b.2.1 ∧ e.2.ScorePods < b.2.2)
        · have hstep : pickStep acc e = some (e.1, e.2.ScoreLimits, e.2.ScorePods) := by
            rw [hb, pickStep_some hcap b, if_pos hcond]
          have h1 := hr_acc _ hstep
          have h2 : lexLeQ (e.2.ScoreLimits, e.2.ScorePods) b.2 :=
            lexLeQ_of_cond (hdenhead hcap) (hacc b hb) hcond
          exact lexLeQ_trans h1 h2
        · have hstep : pickStep acc e = some b := by
            rw [hb, pickStep_some hcap b, if_neg hcond]
          exact hr_acc b hstep
    · intro e' he' hcap'
      rcases List.mem_cons.mp he' with rfl | hmem
      · rcases hA : acc with _ | b
        · subst hA
          exact hr_acc _ (pickStep_none hcap')
        · subst hA
          by_cases hcond : e'.2.ScoreLimits.slt b.2.1 ∨
              (e'.2.ScoreLimits.seq b.2.1 ∧ e'.2.ScorePods < b.2.2)
          · have hstep : pickStep (some b) e' =
                some (e'.1, e'.2.ScoreLimits, e'.2.ScorePods) := by
              rw [pickStep_some hcap' b, if_pos hcond]
            exact hr_acc _ hstep
          · have hstep : pickStep (some b) e' = some b := by
              rw [pickStep_some hcap' b, if_neg hcond]
            have h1 := hr_acc b hstep
            have h2 : lexLeQ b.2 (e'.2.ScoreLimits, e'.2.ScorePods) :=
              lexLeQ_of_not_cond (hdenhead hcap') (hacc b rfl) hcond
            exact lexLeQ_trans h1 h2
      · exact hr_es e' hmem hcap'

theorem pickBest_eq_none_iff (es : List (String × NodeInfo)) :
    pickBest es = none ↔ ∀ e ∈ es, e.2.CPUCapacity = 0 := by
  unfold pickBest
  rw [Option.map_eq_none', foldl_pickStep_none_iff es none]
  simp

theorem pickBest_spec (es : List (String × NodeInfo))
    (hden : ∀ e ∈ es, e.2.CPUCapacity ≠ 0 → 0 < e.2.ScoreLimits.den)
    (nm : String) (h : pickBest es = some nm) :
    ∃ e ∈ es, e.2.CPUCapacity ≠ 0 ∧ e.1 = nm ∧
      ∀ e' ∈ es, e'.2.CPUCapacity ≠ 0 →
        lexLeQ (e.2.ScoreLimits, e.2.ScorePods)
          (e'.2.ScoreLimits, e'.2.ScorePods) := by
  unfold pickBest at h
  obtain ⟨r, hr, hnm⟩ := Option.map_eq_some'.mp h
  obtain ⟨e, he, hcap, hre⟩ :=
    (foldl_pickStep_provenance es none r hr).resolve_left (by simp)
  obtain ⟨_, _, hmin⟩ := foldl_pickStep_spec es none hden (by simp) r hr
  refine ⟨e, he, hcap, ?_, ?_⟩
  · rw [← hnm, hre]
  · intro e' he' hcap'
    have hme := hmin e' he' hcap'
    rw [hre] at hme
    exact hme

theorem entries_hden (nodes : List NodeItem) (nsPods : List PodSpec)
    (cand : PodSpec) :
    ∀ e ∈ nodes.map fun n => (n.name, finalInfo nsPods cand n),
      e.2.CPUCapacity ≠ 0 → 0 < e.2.ScoreLimits.den := by
  intro e he hcap
  obtain ⟨n, _, rfl⟩ := List.mem_map.mp he
  exact (finalInfo_score_val (finalInfo_cap_ne_zero_iff.mp hcap)).2

theorem name_inj {nodes : List NodeItem}
    (hnd : (nodes.map NodeItem.name).Nodup) {a b : NodeItem}
    (ha : a ∈ nodes) (hb : b ∈ nodes) (h : a.name = b.name) : a = b := by
  induction nodes with
  | nil => exact absurd ha (List.not_mem_nil a)
  | cons n ns ih =>
    rcases List.mem_cons.mp ha with rfl | ha' <;>
      rcases List.mem_cons.mp hb with rfl | hb'
    · rfl
    · exact absurd (h ▸ List.mem_map_of_mem NodeItem.name hb')
        (List.nodup_cons.mp hnd).1
    · exact absurd (h ▸ List.mem_map_of_mem NodeItem.name ha')
        (List.nodup_cons.mp hnd).1
    · exact ih (List.nodup_cons.mp hnd).2 ha' hb'

/-- The winner returned by `selectNode` is an admissible node minimising the
spread score, with the pod count as tie-break. -/
theorem selectNode_winner (nodes : List NodeItem) (nsPods : List PodSpec)
    (cand : PodSpec) (nm : String)
    (hnd : (nodes.map NodeItem.name).Nodup)
    (hcov : ∀ p ∈ nsPods, p.nodeName ≠ "" → p.nodeName ∈ nodes.map NodeItem.name)
    (h : selectNode nodes nsPods cand = some (Except.ok nm)) :
    ∃ n ∈ nodes, n.name = nm ∧ admissible nsPods cand n ∧
      ∀ n' ∈ nodes, admissible nsPods cand n' →
        limitRatio nsPods cand n ≤ limitRatio nsPods cand n' ∧
          (limitRatio nsPods cand n = limitRatio nsPods cand n' →
            nsPodCount n.name nsPods ≤ nsPodCount n'.name nsPods) := by
  unfold selectNode at h
  rw [buildInfoMap_eq nodes nsPods cand hnd hcov, Option.map_some'] at h
  cases hpb : pickBest (nodes.map fun n => (n.name, finalInfo nsPods cand n)) with
  | none =>
    rw [hpb] at h
    exact absurd (Option.some.inj h) (by simp)
  | some nm0 =>
    rw [hpb] at h
    have hnm : nm0 = nm := Except.ok.inj (Option.some.inj h)
    subst hnm
    obtain ⟨e, he, hcap, hename, hmin⟩ :=
      pickBest_spec _ (entries_hden nodes nsPods cand) nm0 hpb
    obtain ⟨n, hn, rfl⟩ := List.mem_map.mp he
    have hadm : admissible nsPods cand n := finalInfo_cap_ne_zero_iff.mp hcap
    refine ⟨n, hn, hename, hadm, ?_⟩
    intro n' hn' hadm'
    have he' : (n'.name, finalInfo nsPods cand n') ∈
        nodes.map fun n => (n.name, finalInfo nsPods cand n) :=
      List.mem_map_of_mem _ hn'
    have hcap' : (finalInfo nsPods cand n').CPUCapacity ≠ 0 :=
      finalInfo_cap_ne_zero_iff.mpr hadm'
    have hlex := hmin _ he' hcap'
    obtain ⟨hval, _⟩ := finalInfo_score_val hadm
    obtain ⟨hval', _⟩ := finalInfo_score_val hadm'
    rcases hlex with hlt | ⟨heq, hle⟩
    · have hlt2 : limitRatio nsPods cand n < limitRatio nsPods cand n' := by
        rw [← hval, ← hval']
        exact hlt
      exact ⟨le_of_lt hlt2, fun hreq => absurd hreq (ne_of_lt hlt2)⟩
    · have heq2 : limitRatio nsPods cand n = limitRatio nsPods cand n' := by
        rw [← hval, ← hval']
        exact heq
      have hle2 : nsPodCount n.name nsPods ≤ nsPodCount n'.name nsPods := by
        rw [← finalInfo_ScorePods nsPods cand n, ← finalInfo_ScorePods nsPods cand n']
        exact hle
      exact ⟨le_of_eq heq2, fun _ => hle2⟩

/-- `selectNode` returns its error value exactly when no node is
admissible. -/
theorem selectNode_error_iff (nodes : List NodeItem) (nsPods : List PodSpec)
    (cand : PodSpec)
    (hnd : (nodes.map NodeItem.name).Nodup)
    (hcov : ∀ p ∈ nsPods, p.nodeName ≠ "" → p.nodeName ∈ nodes.map NodeItem.name) :
    selectNode nodes nsPods cand = some (Except.error "no suitable node found") ↔
      ∀ n ∈ nodes, ¬admissible nsPods cand n := by
  unfold selectNode
  rw [buildInfoMap_eq nodes nsPods cand hnd hcov, Option.map_some']
  constructor
  · intro h n hn hadm
    cases hpb : pickBest (nodes.map fun n => (n.name, finalInfo nsPods cand n)) with
    | none =>
      rw [pickBest_eq_none_iff] at hpb
      exact finalInfo_cap_ne_zero_iff.mpr hadm
        (hpb _ (List.mem_map_of_mem _ hn))
    | some nm =>
      rw [hpb] at h
      exact Except.noConfusion (Option.some.inj h)
  · intro hall
    have hpb : pickBest (nodes.map fun n => (n.name, finalInfo nsPods cand n)) =
        none := by
      rw [pickBest_eq_none_iff]
      intro e he
      obtain ⟨n, hn, rfl⟩ := List.mem_map.mp he
      by_contra hne
      exact hall n hn (finalInfo_cap_ne_zero_iff.mp hne)
    rw [hpb]

/-- When some node is admissible, `selectNode` returns a node name. -/
theorem selectNode_some_ok (nodes : List NodeItem) (nsPods : List PodSpec)
    (cand : PodSpec)
    (hnd : (nodes.map NodeItem.name).Nodup)
    (hcov : ∀ p ∈ nsPods, p.nodeName ≠ "" → p.nodeName ∈ nodes.map NodeItem.name)
    (h : ∃ n ∈ nodes, admissible nsPods cand n) :
    ∃ nm, selectNode nodes nsPods cand = some (Except.ok nm) := by
  unfold selectNode
  rw [buildInfoMap_eq nodes nsPods cand hnd hcov, Option.map_some']
  cases hpb : pickBest (nodes.map fun n => (n.name, finalInfo nsPods cand n)) with
  | none =>
    obtain ⟨n, hn, hadm⟩ := h
    rw [pickBest_eq_none_iff] at hpb
    exact absurd (hpb _ (List.mem_map_of_mem _ hn))
      (finalInfo_cap_ne_zero_iff.mpr hadm)
  | some nm => exact ⟨nm, rfl⟩

/-- Admissibility only reads the candidate's request sum. -/
theorem admissible_congr {nsPods : List PodSpec} {c c' : PodSpec}
    (h : podRequestSum c = podRequestSum c') (n : NodeItem) :
    admissible nsPods c n ↔ admissible nsPods c' n := by
  unfold admissible
  rw [h]

/-- A larger candidate limit sum never lowers a node's spread score. -/
theorem limitRatio_mono {nsPods : List PodSpec} {c c' : PodSpec}
    (hlim : podLimitSum c ≤ podLimitSum c') (n : NodeItem) :
    limitRatio nsPods c n ≤ limitRatio nsPods c' n := by
  unfold limitRatio
  rcases Nat.eq_zero_or_pos (capOf n) with h0 | hpos
  · rw [h0]
    simp
  · have hnum : ((nsLimitSum n.name nsPods + podLimitSum c : ℕ) : ℚ) ≤
        ((nsLimitSum n.name nsPods + podLimitSum c' : ℕ) : ℚ) := by
      exact_mod_cast Nat.add_le_add_left hlim _
    have hcap : (0 : ℚ) < (capOf n : ℚ) := by exact_mod_cast hpos
    exact div_le_div_of_nonneg_right hnum hcap.le

/-- The aggregation loop ignores pending pods: filtering them away first
changes nothing. -/
theorem foldlM_addPod_filter (ps : List PodSpec) :
    ∀ m : List (String × NodeInfo),
      ps.foldlM addPod m = (ps.filter fun p => p.nodeName != "").foldlM addPod m := by
  induction ps with
  | nil => intro m; rfl
  | cons p ps ih =>
    intro m
    by_cases hb : p.nodeName = ""
    · rw [show (p :: ps).foldlM addPod m =
          (addPod m p).bind fun m' => ps.foldlM addPod m' from rfl,
        show addPod m p = some m by unfold addPod; rw [if_pos hb],
        Option.some_bind, ih m,
        show (p :: ps).filter (fun p => p.nodeName != "") =
          ps.filter fun p => p.nodeName != "" by
            rw [List.filter_cons]; simp [hb]]
    · rw [show (p :: ps).filter (fun p => p.nodeName != "") =
          p :: ps.filter fun p => p.nodeName != "" by
            rw [List.filter_cons]; simp [hb],
        show (p :: ps.filter fun p => p.nodeName != "").foldlM addPod m =
          (addPod m p).bind fun m' =>
            (ps.filter fun p => p.nodeName != "").foldlM addPod m' from rfl,
        show (p :: ps).foldlM addPod m =
          (addPod m p).bind fun m' => ps.foldlM addPod m' from rfl]
      cases addPod m p with
      | none => rfl
      | some m' =>
        rw [Option.some_bind, Option.some_bind, ih m']

/-- Pending pods are invisible to the whole aggregation. -/
theorem nsPodsOn_filter (k : String) (ps : List PodSpec) :
    nsPodsOn k (ps.filter fun p => p.nodeName != "") = nsPodsOn k ps := by
  unfold nsPodsOn
  induction ps with
  | nil => rfl
  | cons p ps ih =>
    by_cases hb : p.nodeName = ""
    · simp [List.filter_cons, hb, ih]
    · simp [List.filter_cons, hb, ih]

/-! Claim theorems. -/

/-- C1: a node is selectable (its entry survives to the selection loop with
non-zero capacity) iff its capacity is positive and the namespace-scoped
request sum plus the candidate's request sum fits within the capacity, and
the chosen node always satisfies that predicate. -/
theorem admission_correctness (nodes : List NodeItem) (nsPods : List PodSpec)
    (cand : PodSpec)
    (hnd : (nodes.map NodeItem.name).Nodup)
    (hcov : ∀ p ∈ nsPods, p.nodeName ≠ "" → p.nodeName ∈ nodes.map NodeItem.name) :
    buildInfoMap nodes nsPods cand =
        some (nodes.map fun n => (n.name, finalInfo nsPods cand n)) ∧
      (∀ n ∈ nodes, ((finalInfo nsPods cand n).CPUCapacity ≠ 0 ↔
        0 < capOf n ∧
          nsRequestSum n.name nsPods + podRequestSum cand ≤ capOf n)) ∧
      ∀ nm, selectNode nodes nsPods cand = some (Except.ok nm) →
        ∃ n ∈ nodes, n.name = nm ∧ 0 < capOf n ∧
          nsRequestSum n.name nsPods + podRequestSum cand ≤ capOf n := by
  refine ⟨buildInfoMap_eq nodes nsPods cand hnd hcov, ?_, ?_⟩
  · intro n _
    exact finalInfo_cap_ne_zero_iff
  · intro nm h
    obtain ⟨n, hn, hname, hadm, _⟩ :=
      selectNode_winner nodes nsPods cand nm hnd hcov h
    exact ⟨n, hn, hname, hadm.1, hadm.2⟩

/-- C1 witness: on scenario 1 the chosen node `Y` is admissible. -/
theorem admission_correctness_witness :
    ∃ n ∈ [(⟨"X", some 4⟩ : NodeItem), ⟨"Y", some 8⟩], n.name = "Y" ∧
      0 < capOf n ∧
        nsRequestSum n.name [⟨"ns", "X", [⟨some 2, some 1⟩]⟩] +
          podRequestSum ⟨"ns", "", [⟨some 2, some 1⟩]⟩ ≤ capOf n :=
  (admission_correctness [⟨"X", some 4⟩, ⟨"Y", some 8⟩]
      [⟨"ns", "X", [⟨some 2, some 1⟩]⟩] ⟨"ns", "", [⟨some 2, some 1⟩]⟩
      (by decide) (by decide)).2.2 "Y" (by decide)

/-- C2: whenever some node is admissible the selector returns a node, and
any returned node is an admissible node of minimal `limitRatio`, with
minimal `podCount` among the nodes tied on that minimal ratio. -/
theorem selector_minimality (nodes : List NodeItem) (nsPods : List PodSpec)
    (cand : PodSpec)
    (hnd : (nodes.map NodeItem.name).Nodup)
    (hcov : ∀ p ∈ nsPods, p.nodeName ≠ "" → p.nodeName ∈ nodes.map NodeItem.name) :
    ((∃ n ∈ nodes, admissible nsPods cand n) →
      ∃ nm, selectNode nodes nsPods cand = some (Except.ok nm)) ∧
    ∀ nm, selectNode nodes nsPods cand = some (Except.ok nm) →
      ∃ n ∈ nodes, n.name = nm ∧ admissible nsPods cand n ∧
        (∀ n' ∈ nodes, admissible nsPods cand n' →
          limitRatio nsPods cand n ≤ limitRatio nsPods cand n') ∧
        ∀ n' ∈ nodes, admissible nsPods cand n' →
          limitRatio nsPods cand n' = limitRatio nsPods cand n →
          nsPodCount n.name nsPods ≤ nsPodCount n'.name nsPods := by
  refine ⟨selectNode_some_ok nodes nsPods cand hnd hcov, ?_⟩
  intro nm h
  obtain ⟨n, hn, hname, hadm, hmin⟩ :=
    selectNode_winner nodes nsPods cand nm hnd hcov h
  exact ⟨n, hn, hname, hadm, fun n' hn' ha' => (hmin n' hn' ha').1,
    fun n' hn' ha' heq => (hmin n' hn' ha').2 heq.symm⟩

/-- C2 witness: on scenario 1 the returned node `Y` minimises the ratio. -/
theorem selector_minimality_witness :
    ∃ n ∈ [(⟨"X", some 4⟩ : NodeItem), ⟨"Y", some 8⟩], n.name = "Y" ∧
      admissible [⟨"ns", "X", [⟨some 2, some 1⟩]⟩]
          ⟨"ns", "", [⟨some 2, some 1⟩]⟩ n ∧
      (∀ n' ∈ [(⟨"X", some 4⟩ : NodeItem), ⟨"Y", some 8⟩],
        admissible [⟨"ns", "X", [⟨some 2, some 1⟩]⟩]
            ⟨"ns", "", [⟨some 2, some 1⟩]⟩ n' →
          limitRatio [⟨"ns", "X", [⟨some 2, some 1⟩]⟩]
              ⟨"ns", "", [⟨some 2, some 1⟩]⟩ n ≤
            limitRatio [⟨"ns", "X", [⟨some 2, some 1⟩]⟩]
              ⟨"ns", "", [⟨some 2, some 1⟩]⟩ n') ∧
      ∀ n' ∈ [(⟨"X", some 4⟩ : NodeItem), ⟨"Y", some 8⟩],
        admissible [⟨"ns", "X", [⟨some 2, some 1⟩]⟩]
            ⟨"ns", "", [⟨some 2, some 1⟩]⟩ n' →
        limitRatio [⟨"ns", "X", [⟨some 2, some 1⟩]⟩]
            ⟨"ns", "", [⟨some 2, some 1⟩]⟩ n' =
          limitRatio [⟨"ns", "X", [⟨some 2, some 1⟩]⟩]
            ⟨"ns", "", [⟨some 2, some 1⟩]⟩ n →
        nsPodCount n.name [⟨"ns", "X", [⟨some 2, some 1⟩]⟩] ≤
          nsPodCount n'.name [⟨"ns", "X", [⟨some 2, some 1⟩]⟩] :=
  (selector_minimality [⟨"X", some 4⟩, ⟨"Y", some 8⟩]
      [⟨"ns", "X", [⟨some 2, some 1⟩]⟩] ⟨"ns", "", [⟨some 2, some 1⟩]⟩
      (by decide) (by decide)).2 "Y" (by decide)

/-- Entry of a tied node as the selection loop sees it: capacity 1, no
namespace pods, candidate limit and request 1, score 1/1. -/
def tieEntryA : String × NodeInfo :=
  ("a", ⟨1, 0, 1, 0, 1, ⟨1, 1⟩, 0⟩)

/-- Same as `tieEntryA` under the name `b`: a full tie. -/
def tieEntryB : String × NodeInfo :=
  ("b", ⟨1, 0, 1, 0, 1, ⟨1, 1⟩, 0⟩)

/-- C3: with two nodes fully tied on score and pod count, the winner of the
selection loop depends on the order in which the map entries are iterated —
the same map content (a permutation) yields two different winners, so the
outcome is decided by the randomised Go map iteration order, not by the
input. -/
theorem tie_break_map_order_dependent :
    buildInfoMap [⟨"a", some 1⟩, ⟨"b", some 1⟩] [] ⟨"ns", "", [⟨some 1, some 1⟩]⟩ =
        some [tieEntryA, tieEntryB] ∧
      [tieEntryB, tieEntryA].Perm [tieEntryA, tieEntryB] ∧
      pickBest [tieEntryA, tieEntryB] = some "a" ∧
      pickBest [tieEntryB, tieEntryA] = some "b" ∧
      ("a" : String) ≠ "b" := by
  refine ⟨by decide, List.Perm.swap _ _ _, by decide, by decide, by decide⟩

/-- C4: a node with capacity 0 (reported 0 or unreported) stays recorded in
the per-node map, is never the returned winner, and its score keeps the
untouched sentinel `1e9` — the ratio division is never evaluated for it. -/
theorem zero_capacity_never_selected (nodes : List NodeItem)
    (nsPods : List PodSpec) (cand : PodSpec) (n : NodeItem)
    (hnd : (nodes.map NodeItem.name).Nodup)
    (hcov : ∀ p ∈ nsPods, p.nodeName ≠ "" → p.nodeName ∈ nodes.map NodeItem.name)
    (hn : n ∈ nodes)
    (hcap : n.cpuCapacity = none ∨ n.cpuCapacity = some 0) :
    (∀ nm, selectNode nodes nsPods cand = some (Except.ok nm) → nm ≠ n.name) ∧
      (n.name, finalInfo nsPods cand n) ∈
        (nodes.map fun n => (n.name, finalInfo nsPods cand n)) ∧
      (finalInfo nsPods cand n).ScoreLimits = ⟨10 ^ 9, 1⟩ := by
  have hc0 : capOf n = 0 := by
    rcases hcap with h | h <;> simp [capOf, h]
  have hnadm : ¬admissible nsPods cand n := by
    rintro ⟨h1, _⟩
    rw [hc0] at h1
    exact Nat.lt_irrefl 0 h1
  refine ⟨?_, List.mem_map_of_mem _ hn, (finalInfo_not_admissible hnadm).2⟩
  intro nm h hcontra
  obtain ⟨n', hn', hname, hadm, _⟩ :=
    selectNode_winner nodes nsPods cand nm hnd hcov h
  have heq : n' = n := name_inj hnd hn' hn (by rw [hname, hcontra])
  exact hnadm (heq ▸ hadm)

/-- C4 witness: the zero-capacity node `Z` is recorded but never chosen and
keeps the sentinel score. -/
theorem zero_capacity_never_selected_witness :
    (∀ nm, selectNode [⟨"Z", some 0⟩, ⟨"Y", some 8⟩] []
        ⟨"ns", "", [⟨some 2, some 1⟩]⟩ = some (Except.ok nm) → nm ≠ "Z") ∧
      ("Z", finalInfo [] ⟨"ns", "", [⟨some 2, some 1⟩]⟩ ⟨"Z", some 0⟩) ∈
        ([⟨"Z", some 0⟩, ⟨"Y", some 8⟩].map fun n =>
          (n.name, finalInfo [] ⟨"ns", "", [⟨some 2, some 1⟩]⟩ n)) ∧
      (finalInfo [] ⟨"ns", "", [⟨some 2, some 1⟩]⟩
        ⟨"Z", some 0⟩).ScoreLimits = ⟨10 ^ 9, 1⟩ :=
  zero_capacity_never_selected [⟨"Z", some 0⟩, ⟨"Y", some 8⟩] []
    ⟨"ns", "", [⟨some 2, some 1⟩]⟩ ⟨"Z", some 0⟩
    (by decide) (by decide) (by decide) (Or.inr rfl)

/-- C5: when no node is admissible, `selectNode` returns the distinguishable
`"no suitable node found"` error (not a panic and not a node), and the
caller performs no bind — the pod is left pending. -/
theorem no_eligible_node_outcome (nodes : List NodeItem)
    (nsPods : List PodSpec) (cand : PodSpec)
    (hnd : (nodes.map NodeItem.name).Nodup)
    (hcov : ∀ p ∈ nsPods, p.nodeName ≠ "" → p.nodeName ∈ nodes.map NodeItem.name)
    (hnone : ∀ n ∈ nodes, ¬admissible nsPods cand n) :
    selectNode nodes nsPods cand =
        some (Except.error "no suitable node found") ∧
      bindTarget nodes nsPods cand = some none := by
  have h := (selectNode_error_iff nodes nsPods cand hnd hcov).mpr hnone
  refine ⟨h, ?_⟩
  unfold bindTarget
  rw [h, Option.map_some']

/-- C5 witness: a cluster where every node misreports capacity 0 yields the
error outcome and no bind. -/
theorem no_eligible_node_outcome_witness :
    selectNode [⟨"x", some 0⟩, ⟨"y", none⟩] [] ⟨"ns", "", [⟨some 1, some 1⟩]⟩ =
        some (Except.error "no suitable node found") ∧
      bindTarget [⟨"x", some 0⟩, ⟨"y", none⟩] []
        ⟨"ns", "", [⟨some 1, some 1⟩]⟩ = some none :=
  no_eligible_node_outcome [⟨"x", some 0⟩, ⟨"y", none⟩] []
    ⟨"ns", "", [⟨some 1, some 1⟩]⟩ (by decide) (by decide) (by decide)

/-- C6: pods outside the candidate's namespace contribute nothing — adding
them to the cluster pod list changes neither any node's aggregated limit
sum, request sum, or pod count, nor the decision itself; more generally the
decision only depends on the namespace-scoped pod list. -/
theorem no_namespace_bleed (nodes : List NodeItem)
    (allPods extra : List PodSpec) (cand : PodSpec)
    (hext : ∀ p ∈ extra, p.ns ≠ cand.ns) :
    selectNodeCluster nodes (allPods ++ extra) cand =
        selectNodeCluster nodes allPods cand ∧
      (∀ k, nsLimitSum k (podsInNamespace (allPods ++ extra) cand.ns) =
        nsLimitSum k (podsInNamespace allPods cand.ns)) ∧
      (∀ k, nsRequestSum k (podsInNamespace (allPods ++ extra) cand.ns) =
        nsRequestSum k (podsInNamespace allPods cand.ns)) ∧
      (∀ k, nsPodCount k (podsInNamespace (allPods ++ extra) cand.ns) =
        nsPodCount k (podsInNamespace allPods cand.ns)) ∧
      ∀ P Q : List PodSpec,
        podsInNamespace P cand.ns = podsInNamespace Q cand.ns →
        selectNodeCluster nodes P cand = selectNodeCluster nodes Q cand := by
  have hnil : extra.filter (fun p => p.ns == cand.ns) = [] := by
    rw [List.filter_eq_nil_iff]
    intro p hp
    simp [hext p hp]
  have hfilter : podsInNamespace (allPods ++ extra) cand.ns =
      podsInNamespace allPods cand.ns := by
    unfold podsInNamespace
    rw [List.filter_append, hnil, List.append_nil]
  refine ⟨?_, fun k => by rw [hfilter], fun k => by rw [hfilter],
    fun k => by rw [hfilter], ?_⟩
  · unfold selectNodeCluster
    rw [hfilter]
  · intro P Q hPQ
    unfold selectNodeCluster
    rw [hPQ]

/-- C6 witness: a pod of another namespace bound to node `X` changes
nothing on scenario 1. -/
theorem no_namespace_bleed_witness :
    selectNodeCluster [⟨"X", some 4⟩, ⟨"Y", some 8⟩]
        ([⟨"ns", "X", [⟨some 2, some 1⟩]⟩] ++ [⟨"other", "X", [⟨some 9, some 9⟩]⟩])
        ⟨"ns", "", [⟨some 2, some 1⟩]⟩ =
      selectNodeCluster [⟨"X", some 4⟩, ⟨"Y", some 8⟩]
        [⟨"ns", "X", [⟨some 2, some 1⟩]⟩] ⟨"ns", "", [⟨some 2, some 1⟩]⟩ :=
  (no_namespace_bleed [⟨"X", some 4⟩, ⟨"Y", some 8⟩]
      [⟨"ns", "X", [⟨some 2, some 1⟩]⟩] [⟨"other", "X", [⟨some 9, some 9⟩]⟩]
      ⟨"ns", "", [⟨some 2, some 1⟩]⟩ (by decide)).1

/-- C7 (the code, at the claim's own edge case): a bound namespace pod whose
node name is absent from the node list makes the aggregation loop
dereference a nil `*NodeInfo` — `selectNode` panics (modelled `none`)
instead of completing with a name or the error value, both when the node
list is merely incomplete and when it is empty. -/
theorem selectNode_panics_on_unknown_node :
    selectNode [⟨"n1", some 4⟩] [⟨"ns", "n2", [⟨some 1, some 1⟩]⟩]
        ⟨"ns", "", []⟩ = none ∧
      selectNode [] [⟨"ns", "gone", []⟩] ⟨"ns", "", []⟩ = none :=
  ⟨by decide, by decide⟩

/-- Nodes of the C8 scenario: capacities 1 and 2. -/
def cexNodes : List NodeItem :=
  [⟨"a", some 1⟩, ⟨"b", some 2⟩]

/-- Namespace pods of the C8 scenario: two limitless pods on `a`, one pod
with limit 2 on `b`. -/
def cexPods : List PodSpec :=
  [⟨"ns", "a", []⟩, ⟨"ns", "a", []⟩, ⟨"ns", "b", [⟨some 2, none⟩]⟩]

/-- Candidate with limit sum 1 for the C8 scenario. -/
def cexCandSmall : PodSpec :=
  ⟨"ns", "", [⟨some 1, none⟩]⟩

/-- Candidate with limit sum 2 for the C8 scenario. -/
def cexCandBig : PodSpec :=
  ⟨"ns", "", [⟨some 2, none⟩]⟩

/-- C8 counterexample: raising the candidate's limit sum from 1 to 2 (same
requests) moves the winner from `a` to `b` through the pod-count tie-break,
yet the new winner's post-addition ratio (2) equals — is not strictly lower
than — the former winner's post-addition ratio (2). -/
theorem ratio_monotonicity_cex :
    selectNode cexNodes cexPods cexCandSmall = some (Except.ok "a") ∧
      selectNode cexNodes cexPods cexCandBig = some (Except.ok "b") ∧
      podLimitSum cexCandSmall < podLimitSum cexCandBig ∧
      podRequestSum cexCandBig = podRequestSum cexCandSmall ∧
      ("b" : String) ≠ "a" ∧
      limitRatio cexPods cexCandBig ⟨"b", some 2⟩ =
        limitRatio cexPods cexCandBig ⟨"a", some 1⟩ ∧
      ¬(limitRatio cexPods cexCandBig ⟨"b", some 2⟩ <
        limitRatio cexPods cexCandBig ⟨"a", some 1⟩) := by
  have h1 : limitRatio cexPods cexCandBig ⟨"b", some 2⟩ = 2 := by
    norm_num [limitRatio, capOf,
      show nsLimitSum "b" cexPods = 2 from by decide,
      show podLimitSum cexCandBig = 2 from by decide]
  have h2 : limitRatio cexPods cexCandBig ⟨"a", some 1⟩ = 2 := by
    norm_num [limitRatio, capOf,
      show nsLimitSum "a" cexPods = 0 from by decide,
      show podLimitSum cexCandBig = 2 from by decide]
  refine ⟨by decide, by decide, by decide, by decide, by decide, ?_, ?_⟩
  · rw [h1, h2]
  · rw [h1, h2]
    exact lt_irrefl 2

/-- C8 amended: with requests held fixed and the candidate's limit sum
increased, the chosen node's post-addition ratio never decreases, and when
the winner changes the new winner's post-addition ratio is at most (not
necessarily strictly below) the former winner's post-addition ratio. -/
theorem ratio_monotonicity_amended (nodes : List NodeItem)
    (nsPods : List PodSpec) (c c' : PodSpec) (nm nm' : String)
    (hnd : (nodes.map NodeItem.name).Nodup)
    (hcov : ∀ p ∈ nsPods, p.nodeName ≠ "" → p.nodeName ∈ nodes.map NodeItem.name)
    (hreq : podRequestSum c' = podRequestSum c)
    (hlim : podLimitSum c ≤ podLimitSum c')
    (h1 : selectNode nodes nsPods c = some (Except.ok nm))
    (h2 : selectNode nodes nsPods c' = some (Except.ok nm')) :
    ∀ n ∈ nodes, n.name = nm → ∀ n' ∈ nodes, n'.name = nm' →
      limitRatio nsPods c n ≤ limitRatio nsPods c' n' ∧
        limitRatio nsPods c' n' ≤ limitRatio nsPods c' n := by
  intro n hn hname n' hn' hname'
  obtain ⟨a, ha, haname, hadma, hmina⟩ :=
    selectNode_winner nodes nsPods c nm hnd hcov h1
  obtain ⟨b, hb, hbname, hadmb, hminb⟩ :=
    selectNode_winner nodes nsPods c' nm' hnd hcov h2
  have hna : n = a := name_inj hnd hn ha (by rw [hname, haname])
  have hnb : n' = b := name_inj hnd hn' hb (by rw [hname', hbname])
  rw [hna, hnb]
  have hadmb_c : admissible nsPods c b := (admissible_congr hreq b).mp hadmb
  have hadma_c' : admissible nsPods c' a := (admissible_congr hreq a).mpr hadma
  constructor
  · calc limitRatio nsPods c a ≤ limitRatio nsPods c b := (hmina b hb hadmb_c).1
      _ ≤ limitRatio nsPods c' b := limitRatio_mono hlim b
  · exact (hminb a ha hadma_c').1

/-- C8 amended witness: on the counterexample snapshot the chosen ratio
rises from 1 to 2 and the new winner ties the old one. -/
theorem ratio_monotonicity_amended_witness :
    limitRatio cexPods cexCandSmall ⟨"a", some 1⟩ ≤
        limitRatio cexPods cexCandBig ⟨"b", some 2⟩ ∧
      limitRatio cexPods cexCandBig ⟨"b", some 2⟩ ≤
        limitRatio cexPods cexCandBig ⟨"a", some 1⟩ :=
  ratio_monotonicity_amended cexNodes cexPods cexCandSmall cexCandBig "a" "b"
    (by decide) (by decide) (by decide) (by decide) (by decide) (by decide)
    ⟨"a", some 1⟩ (by decide) rfl ⟨"b", some 2⟩ (by decide) rfl

/-- C9: pending pods (empty node name) contribute nothing to any node's
aggregates or to the decision; a container with no declared limit or
request adds 0 to the pod's sums without error; and the pod count used for
the tie-break is the plain namespace pod count, never `+1` for the
candidate. -/
theorem pending_pods_and_missing_limits (nodes : List NodeItem)
    (nsPods : List PodSpec) (cand : PodSpec) :
    selectNode nodes nsPods cand =
        selectNode nodes (nsPods.filter fun p => p.nodeName != "") cand ∧
      (∀ k, nsLimitSum k (nsPods.filter fun p => p.nodeName != "") =
        nsLimitSum k nsPods) ∧
      (∀ k, nsRequestSum k (nsPods.filter fun p => p.nodeName != "") =
        nsRequestSum k nsPods) ∧
      (∀ k, nsPodCount k (nsPods.filter fun p => p.nodeName != "") =
        nsPodCount k nsPods) ∧
      (∀ p : PodSpec,
        podLimitSum { p with containers := p.containers ++ [⟨none, none⟩] } =
            podLimitSum p ∧
          podRequestSum { p with containers := p.containers ++ [⟨none, none⟩] } =
            podRequestSum p) ∧
      ∀ n : NodeItem, (finalInfo nsPods cand n).ScorePods =
        nsPodCount n.name nsPods := by
  refine ⟨?_, ?_, ?_, ?_, ?_, fun n => finalInfo_ScorePods nsPods cand n⟩
  · unfold selectNode buildInfoMap
    rw [foldlM_addPod_filter]
  · intro k
    unfold nsLimitSum
    rw [nsPodsOn_filter]
  · intro k
    unfold nsRequestSum
    rw [nsPodsOn_filter]
  · intro k
    unfold nsPodCount
    rw [nsPodsOn_filter]
  · intro p
    constructor <;> simp [podLimitSum, podRequestSum]

/-- C10: a candidate with no CPU limit or request on any container
contributes 0 to both projected sums, every admissible node is then scored
by the existing namespace footprint over its capacity, and the decision
still returns a node whenever one is admissible — it does not fail because
of the empty candidate. -/
theorem limitless_candidate_still_eligible (nodes : List NodeItem)
    (nsPods : List PodSpec) (cand : PodSpec)
    (hnd : (nodes.map NodeItem.name).Nodup)
    (hcov : ∀ p ∈ nsPods, p.nodeName ≠ "" → p.nodeName ∈ nodes.map NodeItem.name)
    (hno : ∀ c ∈ cand.containers, c.cpuLimit = none ∧ c.cpuRequest = none) :
    podLimitSum cand = 0 ∧ podRequestSum cand = 0 ∧
      (∀ n ∈ nodes, admissible nsPods cand n →
        (finalInfo nsPods cand n).ScoreLimits.val =
          (nsLimitSum n.name nsPods : ℚ) / (capOf n : ℚ)) ∧
      ((∃ n ∈ nodes, admissible nsPods cand n) →
        ∃ nm, selectNode nodes nsPods cand = some (Except.ok nm)) := by
  have hL : podLimitSum cand = 0 := by
    unfold podLimitSum
    apply List.sum_eq_zero
    intro x hx
    obtain ⟨c, hc, rfl⟩ := List.mem_map.mp hx
    rw [(hno c hc).1]
    rfl
  have hR : podRequestSum cand = 0 := by
    unfold podRequestSum
    apply List.sum_eq_zero
    intro x hx
    obtain ⟨c, hc, rfl⟩ := List.mem_map.mp hx
    rw [(hno c hc).2]
    rfl
  refine ⟨hL, hR, ?_, selectNode_some_ok nodes nsPods cand hnd hcov⟩
  intro n _ hadm
  rw [(finalInfo_score_val hadm).1]
  unfold limitRatio
  rw [hL, Nat.add_zero]

/-- C10 witness: a limitless candidate on a one-node cluster is scheduled
onto that node. -/
theorem limitless_candidate_still_eligible_witness :
    podLimitSum (⟨"ns", "", [⟨none, none⟩]⟩ : PodSpec) = 0 ∧
      podRequestSum (⟨"ns", "", [⟨none, none⟩]⟩ : PodSpec) = 0 ∧
      (∀ n ∈ [(⟨"X", some 4⟩ : NodeItem)],
        admissible [] ⟨"ns", "", [⟨none, none⟩]⟩ n →
          (finalInfo [] ⟨"ns", "", [⟨none, none⟩]⟩ n).ScoreLimits.val =
            (nsLimitSum n.name [] : ℚ) / (capOf n : ℚ)) ∧
      ((∃ n ∈ [(⟨"X", some 4⟩ : NodeItem)],
          admissible [] ⟨"ns", "", [⟨none, none⟩]⟩ n) →
        ∃ nm, selectNode [⟨"X", some 4⟩] [] ⟨"ns", "", [⟨none, none⟩]⟩ =
          some (Except.ok nm)) :=
  limitless_candidate_still_eligible [⟨"X", some 4⟩] []
    ⟨"ns", "", [⟨none, none⟩]⟩ (by decide) (by decide) (by decide)

example :
    selectNode [⟨"X", some 4⟩, ⟨"Y", some 8⟩]
      [⟨"ns", "X", [⟨some 2, some 1⟩]⟩]
      ⟨"ns", "", [⟨some 2, some 1⟩]⟩ = some (Except.ok "Y") := by decide

example :
    selectNode [⟨"X", some 0⟩, ⟨"Y", none⟩] []
      ⟨"ns", "", [⟨some 2, some 1⟩]⟩ =
      some (Except.error "no suitable node found") := by decide

example :
    selectNode [⟨"n1", some 4⟩] [⟨"ns", "n2", []⟩] ⟨"ns", "", []⟩ = none := by
  decide
